import Mathlib

/-!
# Verification of the `test-lsp` completion server core

Shallow embedding of the core of `src/main.rs`: the logos-derived two-class
tokenizer (`Token`), the line/prefix selection helper `pos_to_words_of_line`,
the document store (a `HashMap<Url, String>`), and the message-dispatch
session loop (`main_loop`), together with theorems about them.

Rust strings are modelled as `List Char`; byte-indexed slicing (`&s[..n]`)
is modelled through UTF-8 byte sizes (`Char.utf8Size`), with a slice that
would panic in Rust represented as `Except.error ()`.
-/

/-- Character class of the `Word` rule's regex `[a-zA-Z_0-9]`. -/
def isWordChar (c : Char) : Bool :=
  ('a' ≤ c && c ≤ 'z') || ('A' ≤ c && c ≤ 'Z') || c == '_' || ('0' ≤ c && c ≤ '9')

/-- Character class of the `Symbol` rule's regex `[^a-zA-Z_0-9]`: the
complement of the `Word` class. -/
def isSymbolChar (c : Char) : Bool :=
  !(('a' ≤ c && c ≤ 'z') || ('A' ≤ c && c ≤ 'Z') || c == '_' || ('0' ≤ c && c ≤ '9'))

/-- The token type of `main.rs`: `Word(&str)` or `Symbol(&str)`, each
carrying the matched slice. -/
inductive Token where
  | word : List Char → Token
  | symbol : List Char → Token
deriving DecidableEq, Repr

/-- One item of the logos lexer's iterator: `Result<Token, ()>`. `err`
is the lexer's scan-error case (no rule matched at the current input). -/
inductive ScanItem where
  | ok : Token → ScanItem
  | err : ScanItem
deriving DecidableEq, Repr

/-- The logos lexer over the two rules of `Token`: at each position, a
maximal run of `Word`-class characters yields one `Word` token, otherwise a
single `Symbol`-class character yields a one-character `Symbol` token,
otherwise a scan error is emitted and the character is skipped. -/
def lexAll : List Char → List ScanItem
  | [] => []
  | c :: cs =>
    if isWordChar c then
      ScanItem.ok (Token.word (c :: cs.takeWhile isWordChar)) :: lexAll (cs.dropWhile isWordChar)
    else if isSymbolChar c then
      ScanItem.ok (Token.symbol [c]) :: lexAll cs
    else
      ScanItem.err :: lexAll cs
termination_by l => l.length
decreasing_by
  · simpa [Nat.lt_succ_iff] using (List.dropWhile_suffix isWordChar (l := cs)).length_le
  · simp [Nat.lt_succ_iff]
  · simp [Nat.lt_succ_iff]

/-- The well-formed tokens of a string: the lexer's output with scan
errors dropped (as every caller in `main.rs` does). -/
def tokens (s : List Char) : List Token :=
  (lexAll s).filterMap (fun i => match i with | .ok t => some t | .err => none)

/-- Content slice of a token. -/
def tokenContent : Token → List Char
  | .word w => w
  | .symbol s => s

/-- Whether a token is a `Word`. -/
def isWordTok : Token → Bool
  | .word _ => true
  | .symbol _ => false

/-- Strip one trailing carriage return, as Rust's `lines()` does to a
newline-terminated line. -/
def stripCR (l : List Char) : List Char :=
  match l.getLast? with
  | some c => if c = '\r' then l.dropLast else l
  | none => l

/-- Rust's `str::lines()`: split at `'\n'`, strip a `'\r'` preceding each
`'\n'`, keep an unterminated final line as-is, and produce nothing for the
empty string. -/
def rustLines : List Char → List (List Char)
  | [] => []
  | c :: cs =>
    let line := (c :: cs).takeWhile (fun x => x ≠ '\n')
    let rest := (c :: cs).dropWhile (fun x => x ≠ '\n')
    if rest.isEmpty then [line]
    else stripCR line :: rustLines rest.tail
termination_by l => l.length
decreasing_by
  have hle := (List.dropWhile_suffix (l := c :: cs) (fun x => x ≠ '\n')).length_le
  have htl : ((c :: cs).dropWhile (fun x => x ≠ '\n')).tail.length
      ≤ ((c :: cs).dropWhile (fun x => x ≠ '\n')).length - 1 := by
    simp [List.length_tail]
  simp only [List.length_cons] at hle ⊢
  omega

/-- UTF-8 byte length of a string. -/
def utf8Len (l : List Char) : Nat :=
  (l.map Char.utf8Size).sum

/-- Rust's byte slice `&s[..n]`: `some prefix` when `n` lands on a UTF-8
character boundary within the string, `none` when the slice would panic
(index out of bounds or not on a character boundary). -/
def byteTake : List Char → Nat → Option (List Char)
  | _, 0 => some []
  | [], _ + 1 => none
  | c :: cs, n + 1 =>
    if c.utf8Size ≤ n + 1 then
      (byteTake cs (n + 1 - c.utf8Size)).map (fun p => c :: p)
    else
      none

/-- The token filter passed to `pos_to_words_of_line` in `main_loop`:
keep a `Word`'s content, discard `Symbol`s. -/
def wordFilter : Token → Option (List Char)
  | .word w => some w
  | .symbol _ => none

/-- A zero-based (line, character) cursor position. -/
structure Position where
  line : Nat
  character : Nat
deriving DecidableEq, Repr

/-- `pos_to_words_of_line` from `main.rs`: select the line at the position's
line index (`none` result if out of range), slice its prefix at the byte
offset given by the character (a panic, `Except.error`, if the offset is
past the line's end or not on a character boundary), lex the prefix and
keep what `filter` accepts of the well-formed tokens, skipping scan
errors. -/
def pos_to_words_of_line (pos : Position) (text : List Char)
    (filter : Token → Option (List Char)) : Except Unit (Option (List (List Char))) :=
  match (rustLines text).get? pos.line with
  | none => .ok none
  | some l =>
    match byteTake l pos.character with
    | none => .error ()
    | some context =>
      .ok (some ((lexAll context).filterMap
        (fun a => match a with | .ok v => filter v | .err => none)))

/-- Collecting into an `IndexSet`: deduplicate by equality, keeping the
first occurrence of each element and first-seen order. -/
def indexSetCollect : List (List Char) → List (List Char)
  | [] => []
  | w :: ws => w :: indexSetCollect (ws.filter (fun x => x ≠ w))
termination_by l => l.length
decreasing_by
  simpa [Nat.lt_succ_iff] using List.length_filter_le (fun x => x ≠ w) ws

/-- Index of the first occurrence of `a`, the list's length if absent. -/
def firstIdx (a : List Char) : List (List Char) → Nat
  | [] => 0
  | b :: l => if b = a then 0 else firstIdx a l + 1

/-- The completion item kind used by the server (always `TEXT`). -/
inductive CompletionItemKind where
  | text
deriving DecidableEq, Repr

/-- A completion candidate as constructed in `main_loop`. -/
structure CompletionItem where
  label : List Char
  kind : Option CompletionItemKind
  documentation : Option (List Char)
deriving DecidableEq, Repr

/-- The `CompletionItem` built for one word in `main_loop`: the word as
label, kind `TEXT`, and the fixed documentation string. -/
def mkCompletionItem (w : List Char) : CompletionItem :=
  { label := w
    kind := some CompletionItemKind.text
    documentation := some "An AI suggested completion".data }

/-- Document identifiers (`Url`). -/
abbrev Url := String

/-- The document store `contents : HashMap<Url, String>` of `main_loop`,
modelled as a finite map by its lookup function. -/
def Store := Url → Option (List Char)

/-- The empty store (`HashMap::new()`). -/
def Store.empty : Store := fun _ => none

/-- `HashMap::insert`: insert or replace the text for `id` unconditionally. -/
def Store.put (s : Store) (id : Url) (t : List Char) : Store :=
  fun j => if j = id then some t else s j

/-- `HashMap::get`: the current text for `id`, or `none` if unknown. -/
def Store.get (s : Store) (id : Url) : Option (List Char) :=
  s id

/-- Inbound messages, after framing and JSON decoding, restricted to the
shapes `main_loop` dispatches on: a completion request, the shutdown
request, any other request, `didOpen` and `didChange` notifications, any
other notification, and inbound responses. -/
inductive InMsg where
  | completionReq (reqId : Nat) (uri : Url) (pos : Position)
  | shutdownReq
  | otherReq
  | didOpenNot (uri : Url) (text : List Char)
  | didChangeNot (uri : Url) (contentChanges : List (List Char))
  | otherNot
  | responseMsg
deriving DecidableEq, Repr

/-- Outbound messages the core sends: completion responses. -/
inductive OutMsg where
  | completionResp (reqId : Nat) (items : List CompletionItem)
deriving DecidableEq, Repr

/-- Result of processing one message in `main_loop`: continue with a new
store and emitted messages, return from the loop (shutdown), or panic. -/
inductive StepResult where
  | next (store : Store) (out : List OutMsg)
  | stop (store : Store)
  | panic

/-- One iteration of `main_loop`'s `for msg in &connection.receiver` body. -/
def step (store : Store) (msg : InMsg) : StepResult :=
  match msg with
  | .shutdownReq => .stop store
  | .completionReq rid uri pos =>
    match store.get uri with
    | none => .panic
    | some text =>
      match pos_to_words_of_line pos text wordFilter with
      | .error _ => .panic
      | .ok none => .next store []
      | .ok (some ws) =>
        .next store [.completionResp rid ((indexSetCollect ws).map mkCompletionItem)]
  | .otherReq => .next store []
  | .responseMsg => .next store []
  | .didOpenNot uri text => .next (store.put uri text) []
  | .didChangeNot uri changes =>
    match changes with
    | [] => .panic
    | t :: _ => .next (store.put uri t) []
  | .otherNot => .next store []

/-- Run `main_loop` over a finite inbound message trace, starting from a
given store: returns the final store and the concatenated outbound
messages, or `none` if some message panicked the loop. A shutdown request
returns with the current store, leaving later messages unprocessed. -/
def runLoop (store : Store) : List InMsg → Option (Store × List OutMsg)
  | [] => some (store, [])
  | m :: ms =>
    match step store m with
    | .panic => none
    | .stop s => some (s, [])
    | .next s out => (runLoop s ms).map (fun r => (r.1, out ++ r.2))

/-- Whether a trace contains a `didOpen` notification for `id`. -/
def openedIn (trace : List InMsg) (id : Url) : Bool :=
  trace.any (fun m => match m with | .didOpenNot i _ => i == id | _ => false)

/-- Whether a trace contains a `didOpen` or `didChange` notification for
`id`. -/
def touchedIn (trace : List InMsg) (id : Url) : Bool :=
  trace.any (fun m =>
    match m with
    | .didOpenNot i _ => i == id
    | .didChangeNot i _ => i == id
    | _ => false)

/-! ## Helper lemmas about the tokenizer -/

theorem isSymbolChar_eq_not_isWordChar (c : Char) : isSymbolChar c = !isWordChar c :=
  rfl

theorem lexAll_no_err (s : List Char) : ScanItem.err ∉ lexAll s := by
  induction s using lexAll.induct with
  | case1 => simp [lexAll]
  | case2 c cs hw ih => simp [lexAll, hw, ih]
  | case3 c cs hw hs ih => simp [lexAll, hw, hs, ih]
  | case4 c cs hw hs ih =>
    exact absurd (by simpa [isSymbolChar_eq_not_isWordChar] using hw) hs

theorem lexAll_eq_map_ok (s : List Char) : lexAll s = (tokens s).map ScanItem.ok := by
  induction s using lexAll.induct with
  | case1 => simp [lexAll, tokens]
  | case2 c cs hw ih => simp [lexAll, tokens, hw, List.filterMap_cons] at ih ⊢; exact ih
  | case3 c cs hw hs ih => simp [lexAll, tokens, hw, hs, List.filterMap_cons] at ih ⊢; exact ih
  | case4 c cs hw hs ih =>
    exact absurd (by simpa [isSymbolChar_eq_not_isWordChar] using hw) hs

theorem tokens_nil : tokens [] = [] := by
  simp [tokens, lexAll]

theorem tokens_cons_word (c : Char) (cs : List Char) (hw : isWordChar c = true) :
    tokens (c :: cs) =
      Token.word (c :: cs.takeWhile isWordChar) :: tokens (cs.dropWhile isWordChar) := by
  simp [tokens, lexAll, hw, List.filterMap_cons]

theorem tokens_cons_symbol (c : Char) (cs : List Char) (hw : isWordChar c = false) :
    tokens (c :: cs) = Token.symbol [c] :: tokens cs := by
  have hs : isSymbolChar c = true := by simp [isSymbolChar_eq_not_isWordChar, hw]
  simp [tokens, lexAll, hw, hs, List.filterMap_cons]

theorem tokens_word_shape (s : List Char) (w : List Char)
    (hmem : Token.word w ∈ tokens s) : w ≠ [] ∧ w.all isWordChar = true := by
  induction s using lexAll.induct with
  | case1 => simp [tokens_nil] at hmem
  | case2 c cs hw ih =>
    rw [tokens_cons_word c cs hw] at hmem
    rcases List.mem_cons.mp hmem with heq | hmem'
    · simp only [Token.word.injEq] at heq
      subst heq
      refine ⟨by simp, ?_⟩
      simp only [List.all_cons, List.all_eq_true, Bool.and_eq_true]
      exact ⟨hw, fun x hx => List.mem_takeWhile_imp hx⟩
    · exact ih hmem'
  | case3 c cs hw hs ih =>
    rw [tokens_cons_symbol c cs (by simpa using hw)] at hmem
    rcases List.mem_cons.mp hmem with heq | hmem'
    · exact absurd heq (by simp)
    · exact ih hmem'
  | case4 c cs hw hs ih =>
    exact absurd (by simpa [isSymbolChar_eq_not_isWordChar] using hw) hs

theorem tokens_symbol_shape (s : List Char) (t : List Char)
    (hmem : Token.symbol t ∈ tokens s) : ∃ c, t = [c] ∧ isWordChar c = false := by
  induction s using lexAll.induct with
  | case1 => simp [tokens_nil] at hmem
  | case2 c cs hw ih =>
    rw [tokens_cons_word c cs hw] at hmem
    rcases List.mem_cons.mp hmem with heq | hmem'
    · exact absurd heq (by simp)
    · exact ih hmem'
  | case3 c cs hw hs ih =>
    rw [tokens_cons_symbol c cs (by simpa using hw)] at hmem
    rcases List.mem_cons.mp hmem with heq | hmem'
    · simp only [Token.symbol.injEq] at heq
      subst heq
      exact ⟨c, rfl, by simpa using hw⟩
    · exact ih hmem'
  | case4 c cs hw hs ih =>
    exact absurd (by simpa [isSymbolChar_eq_not_isWordChar] using hw) hs

theorem tokens_join (s : List Char) : ((tokens s).map tokenContent).flatten = s := by
  induction s using lexAll.induct with
  | case1 => simp [tokens_nil]
  | case2 c cs hw ih =>
    rw [tokens_cons_word c cs hw]
    simp only [List.map_cons, List.flatten_cons, tokenContent, ih]
    simp [List.takeWhile_append_dropWhile]
  | case3 c cs hw hs ih =>
    rw [tokens_cons_symbol c cs (by simpa using hw)]
    simp [tokenContent, ih]
  | case4 c cs hw hs ih =>
    exact absurd (by simpa [isSymbolChar_eq_not_isWordChar] using hw) hs

theorem dropWhile_head_false {p : Char → Bool} {l : List Char} {c : Char} {cs : List Char}
    (h : l.dropWhile p = c :: cs) : p c = false := by
  induction l with
  | nil => simp [List.dropWhile] at h
  | cons a t ih =>
    rw [List.dropWhile_cons] at h
    by_cases hp : p a = true
    · rw [if_pos hp] at h
      exact ih h
    · rw [if_neg hp] at h
      obtain rfl : a = c := by injection h
      simpa using hp

theorem tokens_chain (s : List Char) :
    List.Chain' (fun a b => isWordTok a = true → isWordTok b = false) (tokens s) := by
  induction s using lexAll.induct with
  | case1 => simp [tokens_nil]
  | case2 c cs hw ih =>
    rw [tokens_cons_word c cs hw]
    match hdrop : cs.dropWhile isWordChar with
    | [] => simp [hdrop, tokens_nil]
    | d :: ds =>
      have hd : isWordChar d = false := dropWhile_head_false hdrop
      rw [hdrop] at ih
      rw [tokens_cons_symbol d ds hd] at ih ⊢
      exact List.chain'_cons.mpr ⟨fun _ => rfl, ih⟩
  | case3 c cs hw hs ih =>
    rw [tokens_cons_symbol c cs (by simpa using hw)]
    match hcs : cs with
    | [] => simp [tokens_nil]
    | d :: ds =>
      by_cases hd : isWordChar d = true
      · rw [tokens_cons_word d ds hd] at ih ⊢
        exact List.chain'_cons.mpr ⟨fun h => by simp [isWordTok] at h, ih⟩
      · rw [tokens_cons_symbol d ds (by simpa using hd)] at ih ⊢
        exact List.chain'_cons.mpr ⟨fun h => by simp [isWordTok] at h, ih⟩
  | case4 c cs hw hs ih =>
    exact absurd (by simpa [isSymbolChar_eq_not_isWordChar] using hw) hs

/-! ## Helper lemmas about slicing, deduplication and the loop -/

theorem byteTake_none_of_lt (l : List Char) (n : Nat) (h : utf8Len l < n) :
    byteTake l n = none := by
  induction l generalizing n with
  | nil =>
    match n, h with
    | m + 1, _ => rfl
  | cons c cs ih =>
    match n, h with
    | m + 1, h =>
      rw [byteTake]
      by_cases hsz : c.utf8Size ≤ m + 1
      · rw [if_pos hsz]
        have : utf8Len cs < m + 1 - c.utf8Size := by
          simp only [utf8Len, List.map_cons, List.sum_cons] at h ⊢
          omega
        rw [ih _ this]
        rfl
      · rw [if_neg hsz]

theorem mem_indexSetCollect (l : List (List Char)) (a : List Char) :
    a ∈ indexSetCollect l ↔ a ∈ l := by
  induction l using indexSetCollect.induct with
  | case1 => simp [indexSetCollect]
  | case2 w ws ih =>
    rw [indexSetCollect]
    constructor
    · intro h
      rcases List.mem_cons.mp h with rfl | h'
      · exact List.mem_cons_self _ _
      · exact List.mem_cons_of_mem _ (List.mem_filter.mp (ih.mp h')).1
    · intro h
      rcases List.mem_cons.mp h with rfl | h'
      · exact List.mem_cons_self _ _
      · by_cases hw : a = w
        · exact hw ▸ List.mem_cons_self _ _
        · exact List.mem_cons_of_mem _
            (ih.mpr (List.mem_filter.mpr ⟨h', by simpa using hw⟩))

theorem nodup_indexSetCollect (l : List (List Char)) :
    (indexSetCollect l).Nodup := by
  induction l using indexSetCollect.induct with
  | case1 => simp [indexSetCollect]
  | case2 w ws ih =>
    rw [indexSetCollect]
    refine List.nodup_cons.mpr ⟨?_, ih⟩
    intro hmem
    have := (List.mem_filter.mp ((mem_indexSetCollect _ _).mp hmem)).2
    simp at this

theorem firstIdx_cons_self (a : List Char) (l : List (List Char)) :
    firstIdx a (a :: l) = 0 := by
  simp [firstIdx]

theorem firstIdx_cons_ne (a b : List Char) (l : List (List Char)) (h : b ≠ a) :
    firstIdx a (b :: l) = firstIdx a l + 1 := by
  simp [firstIdx, h]

theorem firstIdx_filter_lt (p : List Char → Bool) (l : List (List Char)) (a b : List Char)
    (ha : p a = true) (hb : p b = true)
    (h : firstIdx a (l.filter p) < firstIdx b (l.filter p)) :
    firstIdx a l < firstIdx b l := by
  induction l with
  | nil => simp [firstIdx] at h
  | cons c t ih =>
    by_cases hpc : p c = true
    · rw [List.filter_cons_of_pos hpc] at h
      by_cases hca : c = a
      · subst hca
        rw [firstIdx_cons_self] at h ⊢
        have hcb : c ≠ b := by
          intro hcb
          rw [hcb, firstIdx_cons_self] at h
          exact Nat.lt_irrefl _ h
        rw [firstIdx_cons_ne b c _ hcb]
        exact Nat.succ_pos _
      · by_cases hcb : c = b
        · subst hcb
          rw [firstIdx_cons_self] at h
          exact absurd h (Nat.not_lt_zero _)
        · rw [firstIdx_cons_ne a c _ hca, firstIdx_cons_ne b c _ hcb] at h
          rw [firstIdx_cons_ne a c _ hca, firstIdx_cons_ne b c _ hcb]
          exact Nat.succ_lt_succ (ih (Nat.lt_of_succ_lt_succ h))
    · rw [List.filter_cons_of_neg (by simpa using hpc)] at h
      have hca : c ≠ a := fun hc => hpc (hc ▸ ha)
      have hcb : c ≠ b := fun hc => hpc (hc ▸ hb)
      rw [firstIdx_cons_ne a c _ hca, firstIdx_cons_ne b c _ hcb]
      exact Nat.succ_lt_succ (ih h)

theorem pairwise_firstIdx_indexSetCollect (l : List (List Char)) :
    (indexSetCollect l).Pairwise (fun a b => firstIdx a l < firstIdx b l) := by
  induction l using indexSetCollect.induct with
  | case1 => simp [indexSetCollect]
  | case2 w ws ih =>
    rw [indexSetCollect]
    refine List.pairwise_cons.mpr ⟨?_, ?_⟩
    · intro b hb
      have hbf := (mem_indexSetCollect _ _).mp hb
      have hbne : b ≠ w := by
        have := (List.mem_filter.mp hbf).2
        simpa using this
      rw [firstIdx_cons_self, firstIdx_cons_ne b w _ (Ne.symm hbne)]
      exact Nat.succ_pos _
    · refine ih.imp_of_mem ?_
      intro a b ha hb hrel
      have haf := (mem_indexSetCollect _ _).mp ha
      have hbf := (mem_indexSetCollect _ _).mp hb
      have hane : a ≠ w := by have := (List.mem_filter.mp haf).2; simpa using this
      have hbne : b ≠ w := by have := (List.mem_filter.mp hbf).2; simpa using this
      rw [firstIdx_cons_ne a w _ (Ne.symm hane), firstIdx_cons_ne b w _ (Ne.symm hbne)]
      exact Nat.succ_lt_succ
        (firstIdx_filter_lt _ ws a b (by simpa using hane) (by simpa using hbne) hrel)

theorem wordOccs_eq (s : List Char) :
    (lexAll s).filterMap (fun a => match a with | .ok v => wordFilter v | .err => none)
      = (tokens s).filterMap wordFilter := by
  rw [tokens, List.filterMap_filterMap]
  apply List.filterMap_congr
  intro a _
  match a with
  | .ok t => rfl
  | .err => rfl

theorem mem_filterMap_wordFilter (toks : List Token) (w : List Char) :
    w ∈ toks.filterMap wordFilter ↔ Token.word w ∈ toks := by
  rw [List.mem_filterMap]
  constructor
  · rintro ⟨t, hmem, hf⟩
    match t with
    | .word v =>
      obtain rfl : v = w := by simpa [wordFilter] using hf
      exact hmem
    | .symbol _ => simp [wordFilter] at hf
  · intro h
    exact ⟨Token.word w, h, rfl⟩


theorem step_stop_eq (store : Store) (m : InMsg) (s' : Store)
    (h : step store m = .stop s') : s' = store := by
  match m with
  | .shutdownReq => injection h with h'; exact h'.symm
  | .otherReq => exact absurd h (by simp [step])
  | .responseMsg => exact absurd h (by simp [step])
  | .otherNot => exact absurd h (by simp [step])
  | .didOpenNot uri text => exact absurd h (by simp [step])
  | .didChangeNot uri changes =>
    match changes with
    | [] => exact absurd h (by simp [step])
    | t :: ts => exact absurd h (by simp [step])
  | .completionReq rid uri pos =>
    rw [step] at h
    split at h
    · exact StepResult.noConfusion h
    · split at h
      · exact StepResult.noConfusion h
      · exact StepResult.noConfusion h
      · exact StepResult.noConfusion h

theorem step_next_store (store : Store) (m : InMsg) (s' : Store) (out : List OutMsg)
    (h : step store m = .next s' out) :
    s' = store ∨
      ∃ uri t, s' = store.put uri t ∧
        ((∃ text, m = InMsg.didOpenNot uri text) ∨
         (∃ cs, m = InMsg.didChangeNot uri cs)) := by
  match m with
  | .shutdownReq => exact absurd h (by simp [step])
  | .otherReq => exact Or.inl (by injection h with h1 h2; exact h1.symm)
  | .responseMsg => exact Or.inl (by injection h with h1 h2; exact h1.symm)
  | .otherNot => exact Or.inl (by injection h with h1 h2; exact h1.symm)
  | .didOpenNot uri text =>
    refine Or.inr ⟨uri, text, ?_, Or.inl ⟨text, rfl⟩⟩
    injection h with h1 h2
    exact h1.symm
  | .didChangeNot uri changes =>
    match changes with
    | [] => exact absurd h (by simp [step])
    | t :: ts =>
      refine Or.inr ⟨uri, t, ?_, Or.inr ⟨t :: ts, rfl⟩⟩
      rw [step] at h
      injection h with h1 h2
      exact h1.symm
  | .completionReq rid uri pos =>
    rw [step] at h
    split at h
    · exact StepResult.noConfusion h
    · split at h
      · exact StepResult.noConfusion h
      · exact Or.inl (by injection h with h1 h2; exact h1.symm)
      · exact Or.inl (by injection h with h1 h2; exact h1.symm)

theorem touchedIn_cons (m : InMsg) (ms : List InMsg) (id : Url) :
    touchedIn (m :: ms) id =
      ((match m with
        | InMsg.didOpenNot i _ => i == id
        | InMsg.didChangeNot i _ => i == id
        | _ => false) || touchedIn ms id) := by
  simp [touchedIn, List.any_cons]

theorem runLoop_store_inv (trace : List InMsg) (store s : Store) (outs : List OutMsg)
    (id : Url) (h : runLoop store trace = some (s, outs))
    (hid : s.get id ≠ none) :
    store.get id ≠ none ∨ touchedIn trace id = true := by
  induction trace generalizing store outs with
  | nil =>
    simp only [runLoop, Option.some.injEq, Prod.mk.injEq] at h
    obtain ⟨rfl, rfl⟩ := h
    exact Or.inl hid
  | cons m ms ih =>
    rw [runLoop] at h
    cases hstep : step store m with
    | panic => rw [hstep] at h; simp at h
    | stop s2 =>
      rw [hstep] at h
      simp only [Option.some.injEq, Prod.mk.injEq] at h
      obtain ⟨rfl, rfl⟩ := h
      obtain rfl := step_stop_eq store m s2 hstep
      exact Or.inl hid
    | next s2 out =>
      rw [hstep] at h
      simp only [Option.map_eq_some'] at h
      obtain ⟨⟨r1, r2⟩, hmap, heq⟩ := h
      simp only [Prod.mk.injEq] at heq
      obtain ⟨rfl, rfl⟩ := heq
      rcases ih s2 r2 hmap with hin | htc
      · rcases step_next_store store m s2 out hstep with rfl | ⟨uri, t, rfl, hm⟩
        · exact Or.inl hin
        · by_cases hidu : id = uri
          · subst hidu
            rcases hm with ⟨text, rfl⟩ | ⟨cs, rfl⟩ <;>
              simp [touchedIn_cons]
          · refine Or.inl ?_
            simpa [Store.get, Store.put, hidu] using hin
      · rw [touchedIn_cons]
        simp [htc]

/-- A store built by a sequence of `put`s starting from the empty store. -/
def buildStore (ps : List (Url × List Char)) : Store :=
  ps.foldl (fun st p => st.put p.1 p.2) Store.empty

/-! ## Claim theorems -/

/-- C1 counterexample: with document `"ab"` stored, a completion request at
line 0 (in range, the text has one line) and character 5 (beyond the line's
byte length 2) makes the prefix slice panic: `pos_to_words_of_line` is a
panic (`Except.error`), and the session-loop step aborts (`StepResult.panic`)
rather than yielding "no completions". -/
theorem c1_offset_beyond_line_panics_cex :
    (rustLines "ab".data).length = 1 ∧
    utf8Len "ab".data < 5 ∧
    pos_to_words_of_line ⟨0, 5⟩ "ab".data wordFilter = .error () ∧
    step (Store.empty.put "d" "ab".data) (.completionReq 1 "d" ⟨0, 5⟩) = .panic := by
  refine ⟨?_, by decide, ?_, ?_⟩
  · simp +decide [rustLines, stripCR, List.dropWhile, List.takeWhile]
  · simp +decide [pos_to_words_of_line, rustLines, stripCR, byteTake,
      List.dropWhile, List.takeWhile]
  · simp +decide [step, Store.put, Store.get, Store.empty, pos_to_words_of_line,
      rustLines, stripCR, byteTake, List.dropWhile, List.takeWhile]

/-- C1 (amended): for every completion request whose line index is in range
but whose character offset exceeds the selected line's byte length, the
prefix-slicing step of the completion operation panics — `pos_to_words_of_line`
is the panic value and the session-loop step aborts — instead of yielding
"no completions". -/
theorem c1_offset_beyond_line_panics (store : Store) (rid : Nat) (uri : Url)
    (text l : List Char) (line ch : Nat)
    (hdoc : store.get uri = some text)
    (hl : (rustLines text).get? line = some l)
    (hch : utf8Len l < ch) :
    pos_to_words_of_line ⟨line, ch⟩ text wordFilter = .error () ∧
    step store (.completionReq rid uri ⟨line, ch⟩) = .panic := by
  have hbt : byteTake l ch = none := byteTake_none_of_lt l ch hch
  have hp : pos_to_words_of_line ⟨line, ch⟩ text wordFilter = .error () := by
    rw [pos_to_words_of_line]
    simp only [hl, hbt]
  refine ⟨hp, ?_⟩
  rw [step]
  simp only [hdoc, hp]

/-- C1 witness: the amended theorem applied at the stored document `"ab"`,
line 0, character 5. -/
theorem c1_offset_beyond_line_panics_witness :
    (Store.empty.put "d" "ab".data).get "d" = some "ab".data ∧
    (rustLines "ab".data).get? 0 = some "ab".data ∧
    utf8Len "ab".data < 5 ∧
    pos_to_words_of_line ⟨0, 5⟩ "ab".data wordFilter = .error () := by
  have h1 : (Store.empty.put "d" "ab".data).get "d" = some "ab".data := by
    simp [Store.put, Store.get, Store.empty]
  have h2 : (rustLines "ab".data).get? 0 = some "ab".data := by
    simp +decide [rustLines, stripCR, List.dropWhile, List.takeWhile, List.get?]
  have h3 : utf8Len "ab".data < 5 := by decide
  exact ⟨h1, h2, h3,
    (c1_offset_beyond_line_panics (Store.empty.put "d" "ab".data) 1 "d"
      "ab".data "ab".data 0 5 h1 h2 h3).1⟩

/-- C2 counterexample: processing only a `didChange` notification for a
document `"d"` that was never opened creates a store entry for `"d"`, even
though no `didOpen` notification for `"d"` is in the trace. -/
theorem c2_store_entry_without_open_cex :
    (runLoop Store.empty [InMsg.didChangeNot "d" [['t']]]).map (fun r => r.1.get "d")
      = some (some ['t']) ∧
    openedIn [InMsg.didChangeNot "d" [['t']]] "d" = false := by
  constructor
  · simp [runLoop, step, Store.put, Store.get, Store.empty]
  · simp [openedIn]

/-- C2 (amended): in every reachable state of the session loop, the document
store contains an entry for an identifier only if a `didOpen` or a
`didChange` notification for that identifier was previously processed; no
other message kind creates an entry. -/
theorem c2_store_entry_only_after_open_or_change (trace : List InMsg) (s : Store)
    (outs : List OutMsg) (id : Url)
    (h : runLoop Store.empty trace = some (s, outs)) (hid : s.get id ≠ none) :
    touchedIn trace id = true := by
  rcases runLoop_store_inv trace Store.empty s outs id h hid with hin | htc
  · exact absurd rfl hin
  · exact htc

/-- C2 witness: the amended theorem applied to the one-message trace that
opens document `"d"`. -/
theorem c2_store_entry_only_after_open_or_change_witness :
    runLoop Store.empty [InMsg.didOpenNot "d" ['t']]
      = some (Store.empty.put "d" ['t'], []) ∧
    (Store.empty.put "d" ['t']).get "d" ≠ none ∧
    touchedIn [InMsg.didOpenNot "d" ['t']] "d" = true := by
  have h1 : runLoop Store.empty [InMsg.didOpenNot "d" ['t']]
      = some (Store.empty.put "d" ['t'], []) := rfl
  have h2 : (Store.empty.put "d" ['t']).get "d" ≠ none := by
    simp [Store.put, Store.get]
  exact ⟨h1, h2,
    c2_store_entry_only_after_open_or_change [InMsg.didOpenNot "d" ['t']]
      (Store.empty.put "d" ['t']) [] "d" h1 h2⟩

/-- C3: for a stored document and a cursor position strictly within bounds
(line index valid, character offset on a character boundary within the
line), the completion step responds with candidate labels that are exactly
the distinct `Word` tokens of the line prefix at the cursor: membership
coincides with `Word`-token membership, no `Symbol` token's content occurs,
the labels are deduplicated (`Nodup`), and they are listed in first-seen
order of the word occurrences. -/
theorem c3_candidate_labels (store : Store) (rid : Nat) (uri : Url)
    (text l context : List Char) (pos : Position)
    (hdoc : store.get uri = some text)
    (hl : (rustLines text).get? pos.line = some l)
    (hb : byteTake l pos.character = some context) :
    ∃ ws : List (List Char),
      step store (.completionReq rid uri pos) =
        .next store [.completionResp rid (ws.map mkCompletionItem)] ∧
      (∀ w, w ∈ ws ↔ Token.word w ∈ tokens context) ∧
      (∀ t, Token.symbol t ∈ tokens context → t ∉ ws) ∧
      ws.Nodup ∧
      ws.Pairwise (fun a b =>
        firstIdx a ((tokens context).filterMap wordFilter)
          < firstIdx b ((tokens context).filterMap wordFilter)) := by
  have hp : pos_to_words_of_line pos text wordFilter
      = .ok (some ((tokens context).filterMap wordFilter)) := by
    rw [pos_to_words_of_line]
    simp only [hl, hb]
    rw [wordOccs_eq]
  refine ⟨indexSetCollect ((tokens context).filterMap wordFilter), ?_, ?_, ?_, ?_, ?_⟩
  · rw [step]
    simp only [hdoc, hp]
  · intro w
    rw [mem_indexSetCollect, mem_filterMap_wordFilter]
  · intro t ht hmem
    obtain ⟨c, rfl, hc⟩ := tokens_symbol_shape context t ht
    have hw := (mem_filterMap_wordFilter _ _).mp ((mem_indexSetCollect _ _).mp hmem)
    have hshape := tokens_word_shape context [c] hw
    rw [List.all_cons] at hshape
    simp [hc] at hshape
  · exact nodup_indexSetCollect _
  · exact pairwise_firstIdx_indexSetCollect _

/-- C3 witness: the theorem applied at the stored document `"ab +a"` with
the cursor at line 0, character 5. -/
theorem c3_candidate_labels_witness :
    (Store.empty.put "d" "ab +a".data).get "d" = some "ab +a".data ∧
    (rustLines "ab +a".data).get? (0 : Nat) = some "ab +a".data ∧
    byteTake "ab +a".data 5 = some "ab +a".data ∧
    (∃ ws : List (List Char),
      step (Store.empty.put "d" "ab +a".data)
          (.completionReq 1 "d" ⟨0, 5⟩) =
        .next (Store.empty.put "d" "ab +a".data)
          [.completionResp 1 (ws.map mkCompletionItem)] ∧
      (∀ w, w ∈ ws ↔ Token.word w ∈ tokens "ab +a".data) ∧
      (∀ t, Token.symbol t ∈ tokens "ab +a".data → t ∉ ws) ∧
      ws.Nodup ∧
      ws.Pairwise (fun a b =>
        firstIdx a ((tokens "ab +a".data).filterMap wordFilter)
          < firstIdx b ((tokens "ab +a".data).filterMap wordFilter))) := by
  have h1 : (Store.empty.put "d" "ab +a".data).get "d" = some "ab +a".data := by
    simp [Store.put, Store.get, Store.empty]
  have h2 : (rustLines "ab +a".data).get? (0 : Nat) = some "ab +a".data := by
    simp +decide [rustLines, stripCR, List.dropWhile, List.takeWhile, List.get?]
  have h3 : byteTake "ab +a".data 5 = some "ab +a".data := by
    simp +decide [byteTake]
  exact ⟨h1, h2, h3,
    c3_candidate_labels (Store.empty.put "d" "ab +a".data) 1 "d"
      "ab +a".data "ab +a".data "ab +a".data ⟨0, 5⟩ h1 h2 h3⟩

/-- C4 counterexample: processing, in order, an open of `"d"` with
`"let x = 1\nlet y"`, a change of `"d"` to `"let y = "`, and a completion
request for `"d"` at line 1, character 7 produces no completion response at
all (the changed document has a single line, so line index 1 is out of
range), not the candidates `{"let", "y"}`. -/
theorem c4_line1_yields_no_candidates_cex :
    (runLoop Store.empty
      [ .didOpenNot "d" "let x = 1\nlet y".data,
        .didChangeNot "d" ["let y = ".data],
        .completionReq 1 "d" ⟨1, 7⟩ ]).map Prod.snd = some [] := by
  simp +decide [runLoop, step, Store.put, Store.get, Store.empty, pos_to_words_of_line,
    rustLines, stripCR, byteTake, lexAll, wordFilter, isWordChar, isSymbolChar,
    indexSetCollect, List.dropWhile, List.takeWhile]

/-- C4 (amended): the same message sequence with the completion request at
line 0, character 7 produces exactly one response whose candidate labels
are `"let"` and `"y"` in that order, each with kind `TEXT` and the fixed
documentation string, and with `"="` excluded. -/
theorem c4_line0_candidates :
    (runLoop Store.empty
      [ .didOpenNot "d" "let x = 1\nlet y".data,
        .didChangeNot "d" ["let y = ".data],
        .completionReq 1 "d" ⟨0, 7⟩ ]).map Prod.snd =
      some [OutMsg.completionResp 1
        [mkCompletionItem "let".data, mkCompletionItem "y".data]] := by
  simp +decide [runLoop, step, Store.put, Store.get, Store.empty, pos_to_words_of_line,
    rustLines, stripCR, byteTake, lexAll, wordFilter, isWordChar, isSymbolChar,
    indexSetCollect, List.dropWhile, List.takeWhile]

/-- C5: for every input string, the lexer's tokens concatenate back to the
input (full coverage, no gaps or overlaps); every `Word` token is a
nonempty run of `[a-zA-Z_0-9]` characters, every `Symbol` token is a
single character outside that class, and no `Word` token is immediately
followed by another `Word` token (runs of word characters are maximal). -/
theorem c5_tokenize_coverage (s : List Char) :
    ((tokens s).map tokenContent).flatten = s ∧
    (∀ w, Token.word w ∈ tokens s → w ≠ [] ∧ w.all isWordChar = true) ∧
    (∀ t, Token.symbol t ∈ tokens s → ∃ c, t = [c] ∧ isWordChar c = false) ∧
    List.Chain' (fun a b => isWordTok a = true → isWordTok b = false) (tokens s) :=
  ⟨tokens_join s, fun w hw => tokens_word_shape s w hw,
   fun t ht => tokens_symbol_shape s t ht, tokens_chain s⟩

/-- C6: tokenizing `"foo_1 + bar"` yields exactly
`[Word("foo_1"), Symbol(" "), Symbol("+"), Symbol(" "), Word("bar")]`. -/
theorem c6_tokenize_example :
    tokens "foo_1 + bar".data =
      [Token.word "foo_1".data, Token.symbol " ".data, Token.symbol "+".data,
       Token.symbol " ".data, Token.word "bar".data] := by
  simp +decide [tokens, lexAll, isWordChar, isSymbolChar, List.dropWhile, List.takeWhile]

/-- C7: for every stored document and completion request whose line index
is at or beyond the number of lines of the stored text, the line-selection
step returns nothing, `pos_to_words_of_line` yields `none`, and the
session-loop step continues with the store unchanged, emitting no message
and raising no error. -/
theorem c7_line_out_of_range (store : Store) (rid : Nat) (uri : Url)
    (text : List Char) (pos : Position)
    (hdoc : store.get uri = some text)
    (hline : (rustLines text).length ≤ pos.line) :
    pos_to_words_of_line pos text wordFilter = .ok none ∧
    step store (.completionReq rid uri pos) = .next store [] := by
  have hn : (rustLines text).get? pos.line = none := List.get?_eq_none.mpr hline
  have hp : pos_to_words_of_line pos text wordFilter = .ok none := by
    rw [pos_to_words_of_line]
    simp only [hn]
  refine ⟨hp, ?_⟩
  rw [step]
  simp only [hdoc, hp]

/-- C7 witness: the theorem applied at the one-line document `"a"` with a
request at line 3. -/
theorem c7_line_out_of_range_witness :
    (Store.empty.put "d" "a".data).get "d" = some "a".data ∧
    (rustLines "a".data).length ≤ 3 ∧
    pos_to_words_of_line ⟨3, 0⟩ "a".data wordFilter = .ok none := by
  have h1 : (Store.empty.put "d" "a".data).get "d" = some "a".data := by
    simp [Store.put, Store.get, Store.empty]
  have h2 : (rustLines "a".data).length ≤ (3 : Nat) := by
    simp +decide [rustLines, stripCR, List.dropWhile, List.takeWhile]
  exact ⟨h1, h2,
    (c7_line_out_of_range (Store.empty.put "d" "a".data) 1 "d" "a".data ⟨3, 0⟩ h1 h2).1⟩

/-- C8: `put` always succeeds and makes `get` of the same identifier return
the new text, overwriting unconditionally; `get` of any other identifier is
unchanged by the `put`; and `get` of an identifier never `put` into a store
built from a sequence of `put`s returns nothing. -/
theorem c8_store_ops (s : Store) (id id' : Url) (t : List Char)
    (ps : List (Url × List Char)) :
    (s.put id t).get id = some t ∧
    (id' ≠ id → (s.put id t).get id' = s.get id') ∧
    (id' ∉ ps.map Prod.fst → (buildStore ps).get id' = none) := by
  refine ⟨?_, ?_, ?_⟩
  · simp [Store.put, Store.get]
  · intro h
    simp [Store.put, Store.get, h]
  · intro h
    have hfold : ∀ (l : List (Url × List Char)) (st : Store), id' ∉ l.map Prod.fst →
        st.get id' = none → (l.foldl (fun st p => st.put p.1 p.2) st).get id' = none := by
      intro l
      induction l with
      | nil => exact fun st _ h0 => h0
      | cons p l ih =>
        intro st hmem h0
        simp only [List.map_cons, List.mem_cons] at hmem
        push_neg at hmem
        refine ih _ hmem.2 ?_
        simpa [Store.put, Store.get, hmem.1] using h0
    exact hfold ps Store.empty h rfl

/-- C8 witness: the theorem applied to the empty store with `put "a"` and a
probe at the never-inserted identifier `"b"`. -/
theorem c8_store_ops_witness :
    (Store.empty.put "a" ['x']).get "a" = some ['x'] ∧
    (Store.empty.put "a" ['x']).get "b" = Store.empty.get "b" ∧
    (buildStore [("a", ['x'])]).get "b" = none := by
  have h := c8_store_ops Store.empty "a" "b" ['x'] [("a", ['x'])]
  exact ⟨h.1, h.2.1 (by decide), h.2.2 (by simp)⟩

/-- C9: the lexer never produces a scan error — its two character classes
are complementary, so its output is exactly the well-formed token stream
and the error-skipping branch in `pos_to_words_of_line`'s filtering is
unreachable. -/
theorem c9_no_scan_errors (s : List Char) :
    ScanItem.err ∉ lexAll s ∧
    lexAll s = (tokens s).map ScanItem.ok ∧
    (∀ c : Char, isWordChar c = true ∨ isSymbolChar c = true) :=
  ⟨lexAll_no_err s, lexAll_eq_map_ok s, fun c => by
    by_cases h : isWordChar c = true
    · exact Or.inl h
    · exact Or.inr (by simp [isSymbolChar_eq_not_isWordChar, h])⟩

/-- C10: `pos_to_words_of_line` is partial even for a character offset
within the selected line's length in characters: on the line `"éa"` (two
characters), offset 1 is within the line but falls inside the two-byte
UTF-8 encoding of `'é'`, so the prefix-slicing step panics
(`Except.error`) instead of returning a result. -/
theorem c10_mid_char_offset_panics :
    rustLines ['é', 'a'] = [['é', 'a']] ∧
    (1 : Nat) ≤ (['é', 'a'] : List Char).length ∧
    byteTake ['é', 'a'] 1 = none ∧
    pos_to_words_of_line ⟨0, 1⟩ ['é', 'a'] wordFilter = .error () := by
  refine ⟨?_, by decide, by decide, ?_⟩
  · simp +decide [rustLines, stripCR, List.dropWhile, List.takeWhile]
  · simp +decide [pos_to_words_of_line, rustLines, stripCR, byteTake,
      List.dropWhile, List.takeWhile]
